import Mathlib

/-!
Verification of the constraint-construction core of the ceno zkVM.

The development shallowly embeds:
  * the symbolic expression / circuit-builder layer (witness cells, zero
    constraints, lookup-argument queries) over the Goldilocks base field
    used by the repository's tests (p = 2^64 - 2^32 + 1),
  * the UInt<M,C> limb gadgets of `ceno_zkvm/src/uint/arithmetic.rs`
    (internal_add, add, add_const, internal_mul, lt, msb_decompose,
    ltu_limb8, lt_limb8),
  * the circuit/witness registry of `ceno_zkvm/src/structs.rs`
    (ZKVMConstraintSystem, ZKVMWitnesses, ZKVMProvingKey/VerifyingKey).

Primitives of the repository that are not part of the given sources
(circuit_builder.rs, uint/mod.rs, witness.rs) are modelled from the
specification; each such definition carries a doc comment starting with
"Modelled from the spec:".
-/

set_option maxRecDepth 40000

/-- Order of the Goldilocks base field, 2^64 - 2^32 + 1, the base field the
repository's tests instantiate every circuit with. -/
def gp : Nat := 18446744069414584321

/-- The Goldilocks base field as a concrete type. -/
abbrev F := ZMod gp

instance : NeZero gp := ⟨by decide⟩

/-! ### Primality of the Goldilocks modulus

A fuel-driven modular exponentiation lets the kernel check the Lucas
primality certificate for `gp` (witness 7, `gp - 1 = 2^32·3·5·17·257·65537`).
-/

/-- Modular exponentiation by repeated squaring, with explicit fuel so that
it reduces inside the kernel. -/
def powModAux : Nat → Nat → Nat → Nat → Nat
  | 0, _, _, n => 1 % n
  | fuel + 1, b, e, n =>
    if e = 0 then 1 % n
    else
      let r := powModAux fuel (b * b % n) (e / 2) n
      if e % 2 = 1 then r * b % n else r

/-- Modular exponentiation with enough fuel for any exponent below 2^128. -/
def powMod (b e n : Nat) : Nat := powModAux 128 b e n

/-! ### Expressions, lookups, and the circuit builder -/

/-- Symbolic constraint expression over witness-cell references and field
constants, mirroring the repository's `Expression` (the challenge and fixed
variants are not needed by the verified gadgets). -/
inductive Expression where
  | wit : Nat → Expression
  | const : F → Expression
  | add : Expression → Expression → Expression
  | sub : Expression → Expression → Expression
  | mul : Expression → Expression → Expression
deriving DecidableEq

instance : Inhabited Expression := ⟨Expression.const 0⟩

/-- Evaluate an expression by substituting a concrete witness row. -/
def Expression.eval (w : Nat → F) : Expression → F
  | wit i => w i
  | const c => c
  | add a b => a.eval w + b.eval w
  | sub a b => a.eval w - b.eval w
  | mul a b => a.eval w * b.eval w

/-- A lookup-argument query registered with the constraint system: a range
check against the 5-bit/16-bit fixed table chosen by the width, or a query
of the byte-AND or byte-LTU fixed table. -/
inductive Lookup where
  | rangeU : Nat → Expression → Lookup
  | andByte : Expression → Expression → Expression → Lookup
  | ltuByte : Expression → Expression → Expression → Lookup
deriving DecidableEq

/-- Modelled from the spec: satisfaction of one lookup query by a witness.
assert_ux places its expression in [0, 2^C); the byte-AND fixed table holds
(a, b, a AND b) and the byte-LTU fixed table holds (a, b, [a < b]) for all
byte pairs a, b (spec sections 4.1 and 6), the first expression of the query
receiving the table output. -/
def Lookup.sat (w : Nat → F) : Lookup → Prop
  | rangeU c e => (e.eval w).val < 2 ^ c
  | andByte res a b =>
      (a.eval w).val < 256 ∧ (b.eval w).val < 256 ∧
      res.eval w = (((a.eval w).val &&& (b.eval w).val : Nat) : F)
  | ltuByte res a b =>
      (a.eval w).val < 256 ∧ (b.eval w).val < 256 ∧
      res.eval w = if (a.eval w).val < (b.eval w).val then (1 : F) else 0

instance (w : Nat → F) (l : Lookup) : Decidable (l.sat w) := by
  cases l <;> (unfold Lookup.sat; infer_instance)

/-- Modelled from the spec: the mutable circuit-builder front end, reduced
to what the gadgets observe: the number of allocated witness cells, the
ordered list of registered vanishing constraints, and the ordered list of
lookup queries (cell and constraint counts grow monotonically; namespaces
are purely diagnostic and are not modelled). -/
structure CircuitBuilder where
  numWitin : Nat
  constraints : List Expression
  lookups : List Lookup
deriving DecidableEq

/-- A witness row is accepted when every registered constraint vanishes and
every lookup query is satisfied. -/
def CircuitBuilder.satisfies (w : Nat → F) (cb : CircuitBuilder) : Prop :=
  (∀ e ∈ cb.constraints, e.eval w = 0) ∧ ∀ l ∈ cb.lookups, l.sat w

instance (w : Nat → F) (cb : CircuitBuilder) : Decidable (cb.satisfies w) := by
  unfold CircuitBuilder.satisfies; infer_instance

/-- Modelled from the spec: create_witin allocates a fresh witness cell and
returns its reference. -/
def create_witin (cb : CircuitBuilder) : Nat × CircuitBuilder :=
  (cb.numWitin, { cb with numWitin := cb.numWitin + 1 })

/-- Modelled from the spec: require_zero registers a polynomial identity
that must vanish on every accepted witness row. -/
def require_zero (cb : CircuitBuilder) (e : Expression) : CircuitBuilder :=
  { cb with constraints := cb.constraints ++ [e] }

/-- Modelled from the spec: require_equal registers lhs - rhs as a
vanishing identity. -/
def require_equal (cb : CircuitBuilder) (l r : Expression) : CircuitBuilder :=
  require_zero cb (Expression.sub l r)

/-- The expression registered by assert_bit: e * (e - 1). -/
def bitExpr (e : Expression) : Expression :=
  Expression.mul e (Expression.sub e (Expression.const 1))

/-- Modelled from the spec: assert_bit constrains expr * (expr - 1) = 0. -/
def assert_bit (cb : CircuitBuilder) (e : Expression) : CircuitBuilder :=
  require_zero cb (bitExpr e)

/-- Modelled from the spec: assert_ux range-checks the expression into
[0, 2^C) via a lookup against the fixed range table matching C. -/
def assert_ux (c : Nat) (cb : CircuitBuilder) (e : Expression) : CircuitBuilder :=
  { cb with lookups := cb.lookups ++ [Lookup.rangeU c e] }

/-- Modelled from the spec: lookup_and_byte queries the byte-AND fixed
table, the first argument receiving the table's output. -/
def lookup_and_byte (cb : CircuitBuilder) (res a b : Expression) : CircuitBuilder :=
  { cb with lookups := cb.lookups ++ [Lookup.andByte res a b] }

/-- Modelled from the spec: lookup_ltu_limb8 queries the byte-LTU fixed
table, the first argument receiving the table's output bit. -/
def lookup_ltu_limb8 (cb : CircuitBuilder) (res a b : Expression) : CircuitBuilder :=
  { cb with lookups := cb.lookups ++ [Lookup.ltuByte res a b] }

/-- Modelled from the spec: create_witin_from_expr materializes a derived
expression as a fresh cell constrained equal to the expression. -/
def create_witin_from_expr (cb : CircuitBuilder) (e : Expression) :
    Nat × CircuitBuilder :=
  let p := create_witin cb
  (p.1, require_equal p.2 (Expression.wit p.1) e)

/-- Modelled from the spec: is_equal returns a boolean cell and an
auxiliary inverse cell with the constraints (lhs-rhs)*inv = 1 - bool and
bool*(lhs-rhs) = 0 (spec section 4.1). -/
def is_equal (cb : CircuitBuilder) (l r : Expression) :
    (Nat × Nat) × CircuitBuilder :=
  let pb := create_witin cb
  let pv := create_witin pb.2
  let cb1 := require_zero pv.2
    (Expression.sub (Expression.mul (Expression.sub l r) (Expression.wit pv.1))
      (Expression.sub (Expression.const 1) (Expression.wit pb.1)))
  let cb2 := require_zero cb1
    (Expression.mul (Expression.wit pb.1) (Expression.sub l r))
  ((pb.1, pv.1), cb2)

/-! ### The UInt gadgets of uint/arithmetic.rs -/

/-- A UInt in the derived-expression state: limb expressions plus optional
carry cells (the UintLimb::Expression variant). -/
structure UIntE where
  limbs : List Expression
  carries : Option (List Nat)
deriving DecidableEq

/-- A UInt in the materialized state: limb witness cells plus optional
carry cells (the UintLimb::WitIn variant). -/
structure UIntW where
  limbs : List Nat
  carries : Option (List Nat)
deriving DecidableEq

/-- Modelled from the spec: create_carry_witin allocates the carry cells of
an arithmetic result, one fewer than the limb count unless overflow is
permitted, in which case exactly the limb count (spec section 3).
Following spec section 4.2 the carries are not separately range-checked in
this generic path (the exact range used by the repository's
create_carry_witin is an open question recorded in the spec's design
notes). -/
def create_carry_witin (n : Nat) (withOverflow : Bool) (cb : CircuitBuilder) :
    List Nat × CircuitBuilder :=
  let k := if withOverflow then n else n - 1
  ((List.range k).map (cb.numWitin + ·),
   { cb with numWitin := cb.numWitin + k })

/-- Carry adjustment shared by the addition and multiplication gadgets
(`internal_add` lines 38-49, `internal_mul` lines 145-154): add the
previous carry when the index is positive and that carry exists, subtract
2^C times the carry at the index when it exists. -/
def carryAdjust (c : Nat) (carries : List Nat) (i : Nat) (e0 : Expression) :
    Expression :=
  let e1 := match (if i > 0 then carries.get? (i - 1) else none) with
    | some cc => Expression.add e0 (Expression.wit cc)
    | none => e0
  match carries.get? i with
  | some cc =>
      Expression.sub e1
        (Expression.mul (Expression.wit cc) (Expression.const ((2 ^ c : Nat) : F)))
  | none => e1

/-- The i-th result-limb expression of the addition gadget:
a[i] + b[i] with carry adjustment. -/
def addLimbExpr (c : Nat) (carries : List Nat) (i : Nat) (a b : Expression) :
    Expression :=
  carryAdjust c carries i (Expression.add a b)

/-- internal_add, translated from uint/arithmetic.rs lines 18-59: allocate
the carry cells of the result (sized by the addend limb count, which equals
NUM_CELLS for UInt operands), build each result limb as
a[i] + b[i] + carry[i-1] - carry[i]*2^C with the source's Option
conventions, and register an assert_ux range check of width C for every
result limb. -/
def internal_add (c : Nat) (addend1 addend2 : List Expression)
    (withOverflow : Bool) (cb : CircuitBuilder) : UIntE × CircuitBuilder :=
  let p := create_carry_witin addend1.length withOverflow cb
  let limbs := (addend1.zip addend2).enum.map
    (fun q => addLimbExpr c p.1 q.1 q.2.1 q.2.2)
  ({ limbs := limbs, carries := some p.1 },
   { p.2 with lookups := p.2.lookups ++ limbs.map (Lookup.rangeU c) })

/-- add, translated from uint/arithmetic.rs lines 86-96: internal_add of
the two operands' limb expressions (the namespace wrapper is purely
diagnostic and not modelled). -/
def uint_add (c : Nat) (self rhs : UIntE) (withOverflow : Bool)
    (cb : CircuitBuilder) : UIntE × CircuitBuilder :=
  internal_add c self.limbs rhs.limbs withOverflow cb

/-- add_const, translated from uint/arithmetic.rs lines 61-83: the constant
addend's canonical integer is split into NUM_CELLS limbs of C bits,
(b >> (C*i)) & ((1 << C) - 1), before internal_add. -/
def uint_add_const (c n : Nat) (self : UIntE) (b : Nat) (withOverflow : Bool)
    (cb : CircuitBuilder) : UIntE × CircuitBuilder :=
  let bLimbs := (List.range n).map
    (fun i => Expression.const (((b >>> (c * i)) &&& (2 ^ c - 1) : Nat) : F))
  internal_add c self.limbs bLimbs withOverflow cb

/-- Modelled from the spec: UInt::new allocates one witness cell per limb
and range-checks each limb into [0, 2^C) at materialization (spec section
3, range invariant). -/
def uint_new (c n : Nat) (cb : CircuitBuilder) : List Nat × CircuitBuilder :=
  ((List.range n).map (cb.numWitin + ·),
   { cb with
      numWitin := cb.numWitin + n,
      lookups := cb.lookups ++ (List.range n).map
        (fun i => Lookup.rangeU c (Expression.wit (cb.numWitin + i))) })

/-- Convolution entry idx of the schoolbook product: the sum of
a[i] * b[idx-i] over i = 0..idx, associated in the source's push-then-add
order (internal_mul lines 132-143). -/
def convExpr (a b : List Expression) (idx : Nat) : Expression :=
  match (List.range (idx + 1)).map
      (fun i => Expression.mul (a.getD i default) (b.getD (idx - i) default)) with
  | [] => Expression.const 0
  | x :: xs => xs.foldl Expression.add x

/-- The i-th adjusted convolution entry of the multiplication gadget. -/
def mulResultExpr (c : Nat) (carries : List Nat) (a b : List Expression)
    (i : Nat) : Expression :=
  carryAdjust c carries i (convExpr a b i)

/-- internal_mul for materialized operands, translated from
uint/arithmetic.rs lines 98-169: allocate the result UInt (whose limbs are
range-checked cells) and its carries, build the carry-adjusted schoolbook
convolution, and constrain each result limb equal to its convolution
entry.  The materialization branch for derived operands (lines 111-122) is
not modelled; the verified scenarios multiply cell-backed UInts, for which
is_expr() is false and that branch is skipped. -/
def internal_mul (c n : Nat) (a b : List Nat) (withOverflow : Bool)
    (cb : CircuitBuilder) : UIntW × CircuitBuilder :=
  let pc := uint_new c n cb
  let pcar := create_carry_witin n withOverflow pc.2
  let aE := a.map Expression.wit
  let bE := b.map Expression.wit
  let results := (List.range n).map (fun i => mulResultExpr c pcar.1 aE bE i)
  let eqs := (pc.1.zip results).map
    (fun q => Expression.sub (Expression.wit q.1) q.2)
  ({ limbs := pc.1, carries := some pcar.1 },
   { pcar.2 with constraints := pcar.2.constraints ++ eqs })

/-- UInt::lt, translated from uint/arithmetic.rs lines 196-202: returns
the lowest limb expression of self plus one; the circuit builder and the
right-hand operand are ignored. -/
def uint_lt (_circuit_builder : CircuitBuilder) (self _rhs : UIntE) :
    Expression × CircuitBuilder :=
  (Expression.add (self.limbs.getD 0 default) (Expression.const 1),
   _circuit_builder)

/-! ### The byte-limb comparison gadgets -/

/-- The multiplicative inverse of 128 in the Goldilocks field: the constant
F::from(128).invert().unwrap() used by msb_decompose. -/
def inv128 : F := 18302628881372282881

/-- The MsbConfig returned by msb_decompose: the isolated top bit and the
masked high limb, as witness cells. -/
structure MsbConfig where
  msb : Nat
  high_limb_no_msb : Nat
deriving DecidableEq

/-- msb_decompose, translated from uint/arithmetic.rs lines 238-261:
allocate the high_limb_mask cell, query the byte-AND table with
(high_limb_no_msb, high_limb, 1 <<< 7), and materialize
msb = (high_limb - high_limb_no_msb) * 128⁻¹ as a fresh cell. -/
def msb_decompose (limbs : List Nat) (cb : CircuitBuilder) :
    MsbConfig × CircuitBuilder :=
  let p0 := create_witin cb
  let high := Expression.wit (limbs.getD (limbs.length - 1) 0)
  let cb1 := lookup_and_byte p0.2 (Expression.wit p0.1) high
    (Expression.const ((1 <<< 7 : Nat) : F))
  let msbE := Expression.mul (Expression.sub high (Expression.wit p0.1))
    (Expression.const inv128)
  let p1 := create_witin_from_expr cb1 msbE
  ({ msb := p1.1, high_limb_no_msb := p0.1 }, p1.2)

/-- The UIntLtuConfig returned by ltu_limb8, mirroring the source's struct
field for field. -/
structure UIntLtuConfig where
  byte_diff_inv : Nat
  indexes : List Nat
  acc_indexes : List Nat
  lhs_ne_byte : Nat
  rhs_ne_byte : Nat
  is_ltu : Nat
deriving DecidableEq

/-- The accumulated-from-the-high-end index sum si[i]: the running sum
produced by the source's reversed scan, adding indexes[n-1] first and
indexes[i] last (ltu_limb8 lines 287-300). -/
def siExpr (indexes : List Nat) (i : Nat) : Expression :=
  ((indexes.drop i).reverse).foldl
    (fun acc cc => Expression.add acc (Expression.wit cc)) (Expression.const 0)

/-- The per-limb byte-difference zero check of ltu_limb8 (lines 302-311):
a[i] - b[i] - flag[i]*a[i] + flag[i]*b[i], with flag[i] the accumulated
index cell si[i]. -/
def diffZeroExpr (siCell aCell bCell : Nat) : Expression :=
  Expression.add
    (Expression.sub
      (Expression.sub (Expression.wit aCell) (Expression.wit bCell))
      (Expression.mul (Expression.wit siCell) (Expression.wit aCell)))
    (Expression.mul (Expression.wit siCell) (Expression.wit bCell))

/-- The accumulated byte sum over the marked index: sum of limb[i]*index[i]
(ltu_limb8 lines 313-328). -/
def accByteSum (limbs indexes : List Nat) : Expression :=
  (limbs.zip indexes).foldl
    (fun acc q => Expression.add acc
      (Expression.mul (Expression.wit q.1) (Expression.wit q.2)))
    (Expression.const 0)

/-- ltu_limb8, translated from uint/arithmetic.rs lines 264-354.  Witness
cells are allocated in source order from the builder's current count k:
the n one-hot index cells (k..k+n-1), byte_diff_inv (k+n), the n
accumulated-index cells si (k+n+1..k+2n, created for si[0] first), then
lhs_ne_byte, rhs_ne_byte and is_ltu.  The constraint list is extended, in
source order, with the bit asserts of every index cell and of their sum,
the materialization equalities of the si cells, the per-limb
byte-difference zero checks, the materialization equalities of lhs_ne_byte
and rhs_ne_byte, and the byte-inverse check; the lookup list is extended
with the byte-LTU query keyed by (lhs_ne_byte, rhs_ne_byte). -/
def ltu_limb8 (self rhs : List Nat) (cb : CircuitBuilder) :
    UIntLtuConfig × CircuitBuilder :=
  let n := self.length
  let k := cb.numWitin
  let indexes := (List.range n).map (k + ·)
  let byte_diff_inv := k + n
  let si := (List.range n).map (fun i => k + n + 1 + i)
  let lhs_ne_byte := k + 2 * n + 1
  let rhs_ne_byte := k + 2 * n + 2
  let is_ltu := k + 2 * n + 3
  let index_sum := indexes.foldl
    (fun acc cc => Expression.add acc (Expression.wit cc)) (Expression.const 0)
  let newConstraints :=
    indexes.map (fun cc => bitExpr (Expression.wit cc))
    ++ [bitExpr index_sum]
    ++ (List.range n).map (fun i =>
        Expression.sub (Expression.wit (k + n + 1 + i)) (siExpr indexes i))
    ++ (List.range n).map (fun i =>
        diffZeroExpr (k + n + 1 + i) (self.getD i 0) (rhs.getD i 0))
    ++ [Expression.sub (Expression.wit lhs_ne_byte) (accByteSum self indexes)]
    ++ [Expression.sub (Expression.wit rhs_ne_byte) (accByteSum rhs indexes)]
    ++ [Expression.sub
        (Expression.sub
          (Expression.mul (Expression.wit lhs_ne_byte)
            (Expression.wit byte_diff_inv))
          (Expression.mul (Expression.wit rhs_ne_byte)
            (Expression.wit byte_diff_inv)))
        (Expression.wit (k + n + 1))]
  ({ byte_diff_inv := byte_diff_inv, indexes := indexes, acc_indexes := si,
     lhs_ne_byte := lhs_ne_byte, rhs_ne_byte := rhs_ne_byte, is_ltu := is_ltu },
   { numWitin := k + 2 * n + 4,
     constraints := cb.constraints ++ newConstraints,
     lookups := cb.lookups ++ [Lookup.ltuByte (Expression.wit is_ltu)
       (Expression.wit lhs_ne_byte) (Expression.wit rhs_ne_byte)] })

/-- The UIntLtConfig returned by lt_limb8, mirroring the source's struct. -/
structure UIntLtConfig where
  lhs_msb : MsbConfig
  rhs_msb : MsbConfig
  msb_is_equal : Nat
  msb_diff_inv : Nat
  is_ltu : UIntLtuConfig
  is_lt : Nat
deriving DecidableEq

/-- lt_limb8, translated from uint/arithmetic.rs lines 356-394: allocate
and bit-assert is_lt, msb-decompose both operands, replace each operand's
top limb by its masked cell, run ltu_limb8 on the masked operands, compare
the two msb cells with is_equal, and register the zero check
lhs_msb - lhs_msb*rhs_msb + msb_is_equal*is_ltu - is_lt. -/
def lt_limb8 (self rhs : List Nat) (cb : CircuitBuilder) :
    UIntLtConfig × CircuitBuilder :=
  let pLt := create_witin cb
  let cb1 := assert_bit pLt.2 (Expression.wit pLt.1)
  let pA := msb_decompose self cb1
  let pB := msb_decompose rhs pA.2
  let lhs_no_msb := self.set (self.length - 1) pA.1.high_limb_no_msb
  let rhs_no_msb := rhs.set (self.length - 1) pB.1.high_limb_no_msb
  let pLtu := ltu_limb8 lhs_no_msb rhs_no_msb pB.2
  let pEq := is_equal pLtu.2 (Expression.wit pA.1.msb) (Expression.wit pB.1.msb)
  let cb2 := require_zero pEq.2
    (Expression.sub
      (Expression.add
        (Expression.sub (Expression.wit pA.1.msb)
          (Expression.mul (Expression.wit pA.1.msb) (Expression.wit pB.1.msb)))
        (Expression.mul (Expression.wit pEq.1.1) (Expression.wit pLtu.1.is_ltu)))
      (Expression.wit pLt.1))
  ({ lhs_msb := pA.1, rhs_msb := pB.1, msb_is_equal := pEq.1.1,
     msb_diff_inv := pEq.1.2, is_ltu := pLtu.1, is_lt := pLt.1 }, cb2)

/-! ### The circuit/witness registry of structs.rs -/

/-- ROMType, translated from structs.rs lines 42-47: the four fixed lookup
tables. -/
inductive ROMType where
  | U5
  | U16
  | And
  | Ltu
deriving DecidableEq

/-- Modelled from the spec: the finalized lookup-multiplicity data of one
opcode circuit, a count for every table type and lookup key (the
repository's LkMultiplicity, whose finalized form is one key-to-count map
per table type; an absent key stands for count zero). -/
def Mlt : Type := ROMType → Nat → Nat

/-- VerifyingKey, translated from structs.rs lines 103-112: the constraint
system alone. -/
structure VerifyingKey (CS : Type) where
  cs : CS

/-- ProvingKey, translated from structs.rs lines 91-101: optional fixed
traces plus the verifying key. -/
structure ProvingKey (CS Mat : Type) where
  fixed_traces : Option Mat
  vk : VerifyingKey CS

/-- ProvingKey::get_cs, translated from structs.rs lines 97-101. -/
def ProvingKey.get_cs (pk : ProvingKey CS Mat) : CS := pk.vk.cs

/-- ZKVMConstraintSystem, translated from structs.rs lines 114-141: the
name-keyed map of per-circuit constraint systems, modelled as an
association list in registration order (the BTreeMap key set is what the
claims observe). -/
structure ZKVMConstraintSystem (CS : Type) where
  circuit_css : List (String × CS)

/-- The shared insertion step of register_opcode_circuit and
register_table_circuit (structs.rs lines 120-136): building the circuit's
constraint system is the missing OC/TC code, so the freshly built system
is taken as an argument; the assert! on BTreeMap::insert returning None
makes duplicate registration a fatal fault, modelled as Option.none. -/
def register_circuit (z : ZKVMConstraintSystem CS) (name : String) (cs : CS) :
    Option (ZKVMConstraintSystem CS) :=
  if name ∈ z.circuit_css.map Prod.fst then none
  else some { circuit_css := z.circuit_css ++ [(name, cs)] }

/-- register_opcode_circuit, translated from structs.rs lines 120-127. -/
def register_opcode_circuit (z : ZKVMConstraintSystem CS) (name : String)
    (cs : CS) : Option (ZKVMConstraintSystem CS) :=
  register_circuit z name cs

/-- register_table_circuit, translated from structs.rs lines 129-136. -/
def register_table_circuit (z : ZKVMConstraintSystem CS) (name : String)
    (cs : CS) : Option (ZKVMConstraintSystem CS) :=
  register_circuit z name cs

/-- ZKVMConstraintSystem::get_cs, translated from structs.rs lines 138-140. -/
def ZKVMConstraintSystem.get_cs (z : ZKVMConstraintSystem CS) (name : String) :
    Option CS :=
  (z.circuit_css.find? (fun p => p.1 = name)).map Prod.snd

/-- ZKVMWitnesses, translated from structs.rs lines 170-175: assigned
witness matrices, per-circuit multiplicities, and the write-once combined
multiplicity table. -/
structure ZKVMWitnesses (Mat : Type) where
  witnesses : List (String × Mat)
  lk_mlts : List (String × Mlt)
  combined_lk_mlt : Option Mlt

/-- assign_opcode_circuit, translated from structs.rs lines 178-197: the
witness matrix and multiplicities produced by the missing OC code are
taken as arguments; the assert! preconditions (no combined table yet, the
circuit registered, neither map already holding the name) are modelled as
Option.none. -/
def assign_opcode_circuit (zw : ZKVMWitnesses Mat)
    (z : ZKVMConstraintSystem CS) (name : String) (witness : Mat)
    (logup_multiplicity : Mlt) : Option (ZKVMWitnesses Mat) :=
  if zw.combined_lk_mlt.isSome then none
  else if (z.get_cs name).isNone then none
  else if name ∈ zw.witnesses.map Prod.fst then none
  else if name ∈ zw.lk_mlts.map Prod.fst then none
  else some { witnesses := zw.witnesses ++ [(name, witness)],
              lk_mlts := zw.lk_mlts ++ [(name, logup_multiplicity)],
              combined_lk_mlt := none }

/-- The key-wise merge of finalize_lk_multiplicities (structs.rs lines
204-220): starting from the all-zero table (the code's empty initial Vec,
filled by copying the first circuit), every circuit's count is added key
by key.  The BTreeMap drains the per-circuit maps in name order; since the
merge is a pointwise Nat sum, folding in list order yields the same
table. -/
def mergeMlts (ms : List Mlt) : Mlt :=
  ms.foldl (fun acc m => fun t key => acc t key + m t key) (fun _ _ => 0)

/-- finalize_lk_multiplicities, translated from structs.rs lines 200-223:
fatal (None) when the combined table already exists or no opcode circuit
has been assigned; otherwise drains the per-circuit maps into the
key-wise summed combined table. -/
def finalize_lk_multiplicities (zw : ZKVMWitnesses Mat) :
    Option (ZKVMWitnesses Mat) :=
  if zw.combined_lk_mlt.isSome then none
  else if zw.lk_mlts.isEmpty then none
  else some { witnesses := zw.witnesses, lk_mlts := [],
              combined_lk_mlt := some (mergeMlts (zw.lk_mlts.map Prod.snd)) }

/-- assign_table_circuit, translated from structs.rs lines 225-241: fatal
(None) unless the combined table exists and the circuit is registered; the
missing TC::assign_instances is taken as an argument consuming the
combined table. -/
def assign_table_circuit (zw : ZKVMWitnesses Mat)
    (z : ZKVMConstraintSystem CS) (name : String)
    (assign_instances : Mlt → Option Mat) : Option (ZKVMWitnesses Mat) :=
  match zw.combined_lk_mlt with
  | none => none
  | some m =>
    if (z.get_cs name).isNone then none
    else match assign_instances m with
      | none => none
      | some witness =>
        if name ∈ zw.witnesses.map Prod.fst then none
        else some { witnesses := zw.witnesses ++ [(name, witness)],
                    lk_mlts := zw.lk_mlts,
                    combined_lk_mlt := some m }

/-- ZKVMProvingKey, translated from structs.rs lines 244-248. -/
structure ZKVMProvingKey (CS Mat : Type) where
  circuit_pks : List (String × ProvingKey CS Mat)

/-- ZKVMVerifyingKey, translated from structs.rs lines 262-266. -/
structure ZKVMVerifyingKey (CS : Type) where
  circuit_vks : List (String × VerifyingKey CS)

/-- get_vk, translated from structs.rs lines 250-259: map every circuit's
proving key to its verifying key, keeping the name. -/
def ZKVMProvingKey.get_vk (pk : ZKVMProvingKey CS Mat) : ZKVMVerifyingKey CS :=
  { circuit_vks := pk.circuit_pks.map (fun p => (p.1, p.2.vk)) }

/-! ### Spec-side interpretations and concrete instances -/

/-- Nat bit of a field element known to be 0 or 1. -/
def toBit (x : F) : Nat := if x = 1 then 1 else 0

/-- Integer value of little-endian byte limbs. -/
def limbsVal : List Nat → Nat
  | [] => 0
  | x :: xs => x + 256 * limbsVal xs

/-- Modelled from the spec: two's-complement signed interpretation of
little-endian byte limbs (the sign bit is the top bit of the highest
limb), used to state the signed-comparison rule of lt_limb8. -/
def toSigned (limbs : List Nat) : Int :=
  (limbsVal limbs : Int) -
    (if 2 ^ (8 * limbs.length - 1) ≤ limbsVal limbs
      then (2 ^ (8 * limbs.length) : Int) else 0)

/-- The empty circuit builder. -/
def emptyCB : CircuitBuilder := { numWitin := 0, constraints := [], lookups := [] }

/-- Two freshly materialized 4-limb byte UInts (cells 0-3 and 4-7) and the
builder holding their range checks, shared by the concrete byte-limb
scenarios. -/
def byteUIntPair : (List Nat × List Nat) × CircuitBuilder :=
  let pa := uint_new 8 4 emptyCB
  let pb := uint_new 8 4 pa.2
  ((pa.1, pb.1), pb.2)

/-- The ltu_limb8 circuit over two materialized 4-limb byte UInts. -/
def ltuCircuit : UIntLtuConfig × CircuitBuilder :=
  ltu_limb8 byteUIntPair.1.1 byteUIntPair.1.2 byteUIntPair.2

/-- A witness for ltuCircuit with a = [5,1,0,0], b = [3,2,0,0]
(little-endian limbs): the one-hot marker sits at limb 1, the highest
differing limb, while limb 0 also differs but is unmarked. -/
def ltuW : Nat → F := fun i =>
  ([5, 1, 0, 0, 3, 2, 0, 0, 0, 1, 0, 0, -1, 1, 1, 0, 0, 1, 2, 1] : List F).getD i 0

/-- The msb_decompose circuit over one materialized 4-limb byte UInt
(cells 0-3; the masked cell is 4 and the msb cell is 5). -/
def msbCircuit : MsbConfig × CircuitBuilder :=
  let pa := uint_new 8 4 emptyCB
  msb_decompose pa.1 pa.2

/-- A witness for msbCircuit with limbs [0,0,0,255]: the byte-AND lookup
keyed by the constant 1 <<< 7 forces the masked cell to 255 AND 128 = 128,
and the msb cell to 127 * 128⁻¹. -/
def msbW : Nat → F := fun i =>
  ([0, 0, 0, 255, 128, 127 * inv128] : List F).getD i 0

/-- The lt_limb8 circuit over two materialized 4-limb byte UInts. -/
def ltCircuit : UIntLtConfig × CircuitBuilder :=
  lt_limb8 byteUIntPair.1.1 byteUIntPair.1.2 byteUIntPair.2

/-- A witness for ltCircuit with a = [0,0,0,128] (the 32-bit integer
0x80000000, i.e. -2^31 viewed signed) and b = [0,0,0,0]: every constraint
and lookup is satisfied with is_lt = 0. -/
def ltW : Nat → F := fun i =>
  ([0, 0, 0, 128, 0, 0, 0, 0, 0, 128, 0, 0, 0, 0, 0, 0, 1, inv128,
    1, 1, 1, 1, 128, 0, 0, 1, 0] : List F).getD i 0

/-- The add gadget circuit of the concrete C8 scenarios: UInt<64,16>
operands materialized as cells 0-3 and 4-7, added without overflow
(carry cells 8-10). -/
def addCircuit : UIntE × CircuitBuilder :=
  let pa := uint_new 16 4 emptyCB
  let pb := uint_new 16 4 pa.2
  internal_add 16 (pa.1.map Expression.wit) (pb.1.map Expression.wit) false pb.2

/-- Witness a = [1,1,0,0], b = [2,1,0,0], carries [0,0,0]. -/
def addW1 : Nat → F := fun i =>
  ([1, 1, 0, 0, 2, 1, 0, 0, 0, 0, 0] : List F).getD i 0

/-- Witness a = [0xFFFF,0xFFFE,0,0], b = [2,1,0,0], carries [1,1,0]. -/
def addW2 : Nat → F := fun i =>
  ([65535, 65534, 0, 0, 2, 1, 0, 0, 1, 1, 0] : List F).getD i 0

/-- The mul gadget circuit of the concrete C8 scenario: UInt<64,16>
operands materialized as cells 0-3 and 4-7, multiplied without overflow
(result cells 8-11, carry cells 12-14). -/
def mulCircuit : UIntW × CircuitBuilder :=
  let pa := uint_new 16 4 emptyCB
  let pb := uint_new 16 4 pa.2
  internal_mul 16 4 pa.1 pb.1 false pb.2

/-- Witness a = [1,1,0,0], b = [2,1,0,0], result [2,3,1,0], carries [0,0,0]. -/
def mulW : Nat → F := fun i =>
  ([1, 1, 0, 0, 2, 1, 0, 0, 2, 3, 1, 0, 0, 0, 0] : List F).getD i 0

/-- A concrete multiplicity table assigning count 1 to every key. -/
def mltOne : Mlt := fun _ _ => 1

/-- A concrete multiplicity table assigning count 2 to every key. -/
def mltTwo : Mlt := fun _ _ => 2

/-- A concrete proving-key map with a fixed trace present. -/
def pkA : ZKVMProvingKey Nat Nat :=
  { circuit_pks := [("add", { fixed_traces := some 7, vk := { cs := 3 } })] }

/-- The same proving-key map with the fixed trace dropped. -/
def pkB : ZKVMProvingKey Nat Nat :=
  { circuit_pks := [("add", { fixed_traces := none, vk := { cs := 3 } })] }

/-- An empty witness registry. -/
def zwEmpty : ZKVMWitnesses Unit :=
  { witnesses := [], lk_mlts := [], combined_lk_mlt := none }

/-- A witness registry with one assigned opcode circuit. -/
def zwA : ZKVMWitnesses Unit :=
  { witnesses := [("add", ())], lk_mlts := [("add", mltOne)],
    combined_lk_mlt := none }

/-- The registry zwA after finalize_lk_multiplicities. -/
def zwB : ZKVMWitnesses Unit :=
  { witnesses := [("add", ())], lk_mlts := [],
    combined_lk_mlt := some (mergeMlts [mltOne]) }

/-- An empty constraint-system registry. -/
def zcs0 : ZKVMConstraintSystem Unit := { circuit_css := [] }

/-- The registry zcs0 after registering the circuit named add. -/
def zcs1 : ZKVMConstraintSystem Unit := { circuit_css := [("add", ())] }

/-- A two-circuit witness registry before finalization. -/
def zwC : ZKVMWitnesses Unit :=
  { witnesses := [], lk_mlts := [("a", mltOne), ("b", mltTwo)],
    combined_lk_mlt := none }

/-- The registry zwC after finalize_lk_multiplicities. -/
def zwD : ZKVMWitnesses Unit :=
  { witnesses := [], lk_mlts := [],
    combined_lk_mlt := some (mergeMlts [mltOne, mltTwo]) }


/-! ### Helper lemmas -/

theorem powModAux_correct (fuel : Nat) : ∀ b e n, 0 < n → e < 2 ^ fuel →
    powModAux fuel b e n = b ^ e % n := by
  induction fuel with
  | zero =>
    intro b e n _ he
    have : e = 0 := by omega
    subst this
    simp [powModAux]
  | succ f ih =>
    intro b e n hn he
    by_cases h0 : e = 0
    · subst h0; simp [powModAux]
    · have he2 : e / 2 < 2 ^ f := by
        apply Nat.div_lt_of_lt_mul
        calc e < 2 ^ (f + 1) := he
          _ = 2 * 2 ^ f := by ring
      have hrec := ih (b * b % n) (e / 2) n hn he2
      have hbb : (b * b % n) ^ (e / 2) % n = (b * b) ^ (e / 2) % n :=
        (Nat.pow_mod _ _ _).symm
      have hsplit : b ^ e = (b * b) ^ (e / 2) * b ^ (e % 2) := by
        rw [← pow_two, ← pow_mul, ← pow_add]
        congr 1
        omega
      simp only [powModAux, h0, if_false]
      rw [hrec, hbb]
      rcases Nat.mod_two_eq_zero_or_one e with h2 | h2
      · simp [h2, hsplit, pow_zero, mul_one]
      · simp only [h2, if_true]
        rw [hsplit, h2, pow_one, Nat.mod_mul_mod]

theorem powMod_correct (b e n : Nat) (hn : 0 < n) (he : e < 2 ^ 128) :
    powMod b e n = b ^ e % n :=
  powModAux_correct 128 b e n hn he

theorem zmodPow_via_powMod (k : Nat) (hk : k < 2 ^ 128) :
    (7 : F) ^ k = ((powMod 7 k gp : Nat) : F) := by
  rw [powMod_correct 7 k gp (by decide) hk, ZMod.natCast_mod]
  push_cast
  ring

theorem gp_prime : Nat.Prime gp := by
  apply lucas_primality gp 7
  · rw [zmodPow_via_powMod (gp - 1) (by decide)]
    decide
  · intro q hq hdvd
    have h6 : gp - 1 = 2 ^ 32 * (3 * (5 * (17 * (257 * 65537)))) := by decide
    rw [h6] at hdvd
    have hfact : q = 2 ∨ q = 3 ∨ q = 5 ∨ q = 17 ∨ q = 257 ∨ q = 65537 := by
      rcases (Nat.Prime.dvd_mul hq).mp hdvd with h | h
      · exact Or.inl ((Nat.prime_dvd_prime_iff_eq hq Nat.prime_two).mp
          (hq.dvd_of_dvd_pow h))
      rcases (Nat.Prime.dvd_mul hq).mp h with h | h
      · exact Or.inr (Or.inl ((Nat.prime_dvd_prime_iff_eq hq (by norm_num)).mp h))
      rcases (Nat.Prime.dvd_mul hq).mp h with h | h
      · exact Or.inr (Or.inr (Or.inl
          ((Nat.prime_dvd_prime_iff_eq hq (by norm_num)).mp h)))
      rcases (Nat.Prime.dvd_mul hq).mp h with h | h
      · exact Or.inr (Or.inr (Or.inr (Or.inl
          ((Nat.prime_dvd_prime_iff_eq hq (by norm_num)).mp h))))
      rcases (Nat.Prime.dvd_mul hq).mp h with h | h
      · exact Or.inr (Or.inr (Or.inr (Or.inr (Or.inl
          ((Nat.prime_dvd_prime_iff_eq hq (by norm_num)).mp h)))))
      · exact Or.inr (Or.inr (Or.inr (Or.inr (Or.inr
          ((Nat.prime_dvd_prime_iff_eq hq (by norm_num)).mp h)))))
    rcases hfact with rfl | rfl | rfl | rfl | rfl | rfl <;>
      · rw [zmodPow_via_powMod _ (by decide)]
        decide

theorem F_bit_of_sq (x : F) (h : x * (x - 1) = 0) : x = 0 ∨ x = 1 := by
  haveI : Fact (Nat.Prime gp) := ⟨gp_prime⟩
  rcases mul_eq_zero.mp h with h0 | h1
  · exact Or.inl h0
  · exact Or.inr (sub_eq_zero.mp h1)

theorem inv128_spec : (128 : F) * inv128 = 1 := by decide

theorem addLimbExpr_eval (c k m i : Nat) (x y : Expression) (w : Nat → F) :
    (addLimbExpr c ((List.range m).map (k + ·)) i x y).eval w
      = x.eval w + y.eval w
        + (if 0 < i ∧ i - 1 < m then w (k + (i - 1)) else 0)
        - (if i < m then w (k + i) * ((2 ^ c : Nat) : F) else 0) := by
  have hr : ∀ j, j < m → (List.range m)[j]? = some j :=
    fun j hj => List.getElem?_range hj
  have hn : ∀ j, ¬ j < m → (List.range m)[j]? = none :=
    fun j hj => List.getElem?_eq_none (by simpa using Nat.le_of_not_lt hj)
  unfold addLimbExpr carryAdjust
  by_cases h1 : 0 < i
  · by_cases h2 : i - 1 < m
    · by_cases h3 : i < m <;>
        simp [hr _ h2, hr, hn, h1, h2, h3, Expression.eval]
    · by_cases h3 : i < m
      · omega
      · simp [hn _ h2, hn _ h3, h1, h2, h3, Expression.eval]
  · have h0 : i = 0 := by omega
    subst h0
    by_cases h3 : 0 < m <;>
      simp [hr, hn, h3, Expression.eval]

/-- C1: for every pair of limb vectors a, b of a UInt<M,C> and every
with_overflow flag, the addition gadget internal_add (used by add and
add_const) constructs for each limb index i the result expression
c[i] = a[i] + b[i] + carry[i-1] - carry[i]*2^C, where carry[-1] is absent
(treated as 0) and the last carry is omitted when with_overflow is false,
and registers a range check placing each c[i] in [0, 2^C) via the lookup
matching C. -/
theorem c1_internal_add_limbs :
    ∀ (c n : Nat) (a b : List Expression) (ovf : Bool) (cb : CircuitBuilder),
      a.length = n → b.length = n →
      ((internal_add c a b ovf cb).1.carries
          = some ((List.range (if ovf then n else n - 1)).map (cb.numWitin + ·)))
      ∧ (internal_add c a b ovf cb).1.limbs.length = n
      ∧ (∀ s r : UIntE,
          uint_add c s r ovf cb = internal_add c s.limbs r.limbs ovf cb)
      ∧ (∀ (s : UIntE) (bc : Nat), uint_add_const c n s bc ovf cb
          = internal_add c s.limbs ((List.range n).map (fun i =>
              Expression.const (((bc >>> (c * i)) &&& (2 ^ c - 1) : Nat) : F)))
              ovf cb)
      ∧ ∀ (w : Nat → F) (i : Nat), i < n →
          ((internal_add c a b ovf cb).1.limbs.getD i default).eval w
            = (a.getD i default).eval w + (b.getD i default).eval w
              + (if 0 < i then w (cb.numWitin + (i - 1)) else 0)
              - (if i < (if ovf then n else n - 1) then
                  w (cb.numWitin + i) * ((2 ^ c : Nat) : F) else 0)
          ∧ Lookup.rangeU c ((internal_add c a b ovf cb).1.limbs.getD i default)
              ∈ (internal_add c a b ovf cb).2.lookups := by
  intro c n a b ovf cb ha hb
  refine ⟨?_, ?_, fun s r => rfl, fun s bc => rfl, ?_⟩
  · simp [internal_add, create_carry_witin, ha]
  · simp [internal_add, List.length_map, List.enum_length, List.length_zip,
      ha, hb]
  · intro w i hi
    have hia : i < a.length := by omega
    have hib : i < b.length := by omega
    have hzip : (a.zip b)[i]? = some (a[i], b[i]) := by
      rw [List.getElem?_zip_eq_some]
      exact ⟨List.getElem?_eq_getElem hia, List.getElem?_eq_getElem hib⟩
    have hgetA : a.getD i default = a[i] := by
      simp [List.getD_eq_getElem?_getD, List.getElem?_eq_getElem hia]
    have hgetB : b.getD i default = b[i] := by
      simp [List.getD_eq_getElem?_getD, List.getElem?_eq_getElem hib]
    have hget : (internal_add c a b ovf cb).1.limbs.getD i default
        = addLimbExpr c
            ((List.range (if ovf then n else n - 1)).map (cb.numWitin + ·))
            i (a.getD i default) (b.getD i default) := by
      show (((a.zip b).enum.map fun q =>
          addLimbExpr c
            ((List.range (if ovf then a.length else a.length - 1)).map
              (cb.numWitin + ·)) q.1 q.2.1 q.2.2).getD i default) = _
      rw [List.getD_eq_getElem?_getD, List.getElem?_map, List.getElem?_enum,
        hzip, hgetA, hgetB, ha]
      rfl
    constructor
    · rw [hget, addLimbExpr_eval]
      have hiff : (0 < i ∧ i - 1 < (if ovf then n else n - 1)) ↔ 0 < i := by
        constructor
        · exact fun h => h.1
        · intro h
          refine ⟨h, ?_⟩
          cases ovf <;> simp <;> omega
      rw [if_congr hiff rfl rfl]
    · have hil : i < (internal_add c a b ovf cb).1.limbs.length := by
        simp only [internal_add, List.length_map, List.enum_length,
          List.length_zip, ha, hb]
        omega
      have hmem : (internal_add c a b ovf cb).1.limbs.getD i default
          ∈ (internal_add c a b ovf cb).1.limbs := by
        rw [List.getD_eq_getElem?_getD, List.getElem?_eq_getElem hil]
        exact List.getElem_mem hil
      show _ ∈ (internal_add c a b ovf cb).2.lookups
      have : (internal_add c a b ovf cb).2.lookups
          = (create_carry_witin a.length ovf cb).2.lookups
            ++ (internal_add c a b ovf cb).1.limbs.map (Lookup.rangeU c) := rfl
      rw [this]
      exact List.mem_append_right _ (List.mem_map_of_mem _ hmem)

theorem c1_witness :
    (internal_add 16 [Expression.wit 0, Expression.wit 1]
        [Expression.wit 2, Expression.wit 3] false
        { numWitin := 4, constraints := [], lookups := [] }).1.carries = some [4]
    ∧ ((internal_add 16 [Expression.wit 0, Expression.wit 1]
        [Expression.wit 2, Expression.wit 3] false
        { numWitin := 4, constraints := [], lookups := [] }).1.limbs.getD 1
          default).eval (fun _ => (0 : F)) = 0 + 0 + 0 - 0
    ∧ Lookup.rangeU 16 ((internal_add 16 [Expression.wit 0, Expression.wit 1]
        [Expression.wit 2, Expression.wit 3] false
        { numWitin := 4, constraints := [], lookups := [] }).1.limbs.getD 1
          default)
        ∈ (internal_add 16 [Expression.wit 0, Expression.wit 1]
            [Expression.wit 2, Expression.wit 3] false
            { numWitin := 4, constraints := [], lookups := [] }).2.lookups := by
  have h := c1_internal_add_limbs 16 2 [Expression.wit 0, Expression.wit 1]
    [Expression.wit 2, Expression.wit 3] false
    { numWitin := 4, constraints := [], lookups := [] } rfl rfl
  exact ⟨h.1, (h.2.2.2.2 (fun _ => 0) 1 (by decide)).1,
    (h.2.2.2.2 (fun _ => 0) 1 (by decide)).2⟩

/-- C10: for every pair of UInts self and rhs and every circuit-builder
state, UInt::lt returns the expression (lowest limb of self) + 1, registers
no constraints, allocates no witness cells, and its result does not depend
on rhs: it does not implement a less-than comparison. -/
theorem c10_uint_lt_frame :
    ∀ (cb : CircuitBuilder) (self rhs : UIntE),
      (uint_lt cb self rhs).1
          = Expression.add (self.limbs.getD 0 default) (Expression.const 1)
      ∧ (uint_lt cb self rhs).2 = cb
      ∧ (uint_lt cb self rhs).2.numWitin = cb.numWitin
      ∧ (uint_lt cb self rhs).2.constraints = cb.constraints
      ∧ (uint_lt cb self rhs).2.lookups = cb.lookups
      ∧ ∀ rhs2 : UIntE, uint_lt cb self rhs = uint_lt cb self rhs2 :=
  fun _ _ _ => ⟨rfl, rfl, rfl, rfl, rfl, fun _ => rfl⟩

/-- C8: with M=64 and C=16, the addition gadget accepts the witness with
a=[1,1,0,0], b=[2,1,0,0], result [3,2,0,0] and carries [0,0,0]
(overflow=false); accepts a=[0xFFFF,0xFFFE,0,0], b=[2,1,0,0], result
[1,0,1,0] and carries [1,1,0]; and the multiplication gadget accepts
a=[1,1,0,0], b=[2,1,0,0] with result [2,3,1,0] and carries [0,0,0]:
evaluating the constructed result expressions against each witness yields
exactly the stated limb values and satisfies every generated constraint
and lookup. -/
theorem c8_concrete_scenarios :
    (addCircuit.1.limbs.map (fun e => e.eval addW1)) = [3, 2, 0, 0]
    ∧ addCircuit.1.carries = some [8, 9, 10]
    ∧ ([8, 9, 10].map addW1) = [0, 0, 0]
    ∧ addCircuit.2.satisfies addW1
    ∧ (addCircuit.1.limbs.map (fun e => e.eval addW2)) = [1, 0, 1, 0]
    ∧ ([8, 9, 10].map addW2) = [1, 1, 0]
    ∧ addCircuit.2.satisfies addW2
    ∧ (mulCircuit.1.limbs.map mulW) = [2, 3, 1, 0]
    ∧ mulCircuit.1.carries = some [12, 13, 14]
    ∧ ([12, 13, 14].map mulW) = [0, 0, 0]
    ∧ mulCircuit.2.satisfies mulW := by
  decide

/-- C9: for every ZKVMProvingKey, get_vk returns a ZKVMVerifyingKey with
exactly the same circuit names, each circuit's verifying key holding the
same constraint system as that circuit's proving key, and the fixed-trace
contents dropped: the verifying key is a function of the per-circuit
verifying keys alone, insensitive to the fixed traces. -/
theorem c9_get_vk_drops_fixed :
    ∀ (CS Mat : Type) (pk : ZKVMProvingKey CS Mat),
      (pk.get_vk).circuit_vks.map Prod.fst = pk.circuit_pks.map Prod.fst
      ∧ (∀ (name : String) (v : VerifyingKey CS),
          (name, v) ∈ (pk.get_vk).circuit_vks ↔
            ∃ p : ProvingKey CS Mat, (name, p) ∈ pk.circuit_pks ∧ p.vk = v)
      ∧ (∀ (name : String) (p : ProvingKey CS Mat),
          (name, p) ∈ pk.circuit_pks →
            (name, p.vk) ∈ (pk.get_vk).circuit_vks ∧ p.vk.cs = p.get_cs)
      ∧ ∀ pk2 : ZKVMProvingKey CS Mat,
          pk.circuit_pks.map (fun p => (p.1, p.2.vk))
            = pk2.circuit_pks.map (fun p => (p.1, p.2.vk)) →
          pk.get_vk = pk2.get_vk := by
  intro CS Mat pk
  refine ⟨?_, ?_, ?_, ?_⟩
  · show (pk.circuit_pks.map (fun p => (p.1, p.2.vk))).map Prod.fst = _
    rw [List.map_map]
    rfl
  · intro name v
    constructor
    · intro h
      rcases List.mem_map.mp h with ⟨q, hq, heq⟩
      rcases q with ⟨qn, qp⟩
      rcases Prod.mk.injEq _ _ _ _ ▸ heq with ⟨h1, h2⟩
      exact ⟨qp, by rwa [← h1], h2⟩
    · rintro ⟨p, hp, hv⟩
      exact List.mem_map.mpr ⟨(name, p), hp, by simp [hv]⟩
  · intro name p hp
    exact ⟨List.mem_map.mpr ⟨(name, p), hp, rfl⟩, rfl⟩
  · intro pk2 h
    show ZKVMVerifyingKey.mk _ = ZKVMVerifyingKey.mk _
    rw [h]

theorem c9_witness : pkA.get_vk = pkB.get_vk
    ∧ (pkA.get_vk).circuit_vks.map Prod.fst = ["add"] := by
  have h := c9_get_vk_drops_fixed Nat Nat pkA
  exact ⟨h.2.2.2 pkB rfl, h.1.trans rfl⟩

/-- C6: the registry enforces the phase ordering as fatal faults:
assign_table_circuit fails before finalize_lk_multiplicities has run;
finalize_lk_multiplicities fails when run twice or with no opcode circuit
assigned; assign_opcode_circuit fails after finalization; and registering
two circuits (opcode or table) under the same name in one
ZKVMConstraintSystem fails. -/
theorem c6_registry_phase_faults :
    (∀ (Mat CS : Type) (zw : ZKVMWitnesses Mat) (z : ZKVMConstraintSystem CS)
        (name : String) (gen : Mlt → Option Mat),
      zw.combined_lk_mlt = none → assign_table_circuit zw z name gen = none)
    ∧ (∀ (Mat : Type) (zw zw' : ZKVMWitnesses Mat),
        finalize_lk_multiplicities zw = some zw' →
        finalize_lk_multiplicities zw' = none)
    ∧ (∀ (Mat : Type) (zw : ZKVMWitnesses Mat),
        zw.lk_mlts = [] → finalize_lk_multiplicities zw = none)
    ∧ (∀ (Mat CS : Type) (zw : ZKVMWitnesses Mat) (z : ZKVMConstraintSystem CS)
        (name : String) (witness : Mat) (mlt : Mlt),
        zw.combined_lk_mlt.isSome = true →
        assign_opcode_circuit zw z name witness mlt = none)
    ∧ ∀ (CS : Type) (z z' : ZKVMConstraintSystem CS) (name : String)
        (cs1 cs2 : CS),
        register_circuit z name cs1 = some z' →
        register_opcode_circuit z' name cs2 = none
        ∧ register_table_circuit z' name cs2 = none := by
  refine ⟨?_, ?_, ?_, ?_, ?_⟩
  · intro Mat CS zw z name gen h
    simp [assign_table_circuit, h]
  · intro Mat zw zw' h
    unfold finalize_lk_multiplicities at h ⊢
    by_cases h1 : zw.combined_lk_mlt.isSome
    · simp [h1] at h
    · by_cases h2 : zw.lk_mlts.isEmpty
      · simp [h1, h2] at h
      · simp only [h1, h2, if_false, Option.some.injEq, Bool.false_eq_true] at h
        subst h
        simp
  · intro Mat zw h
    by_cases h1 : zw.combined_lk_mlt.isSome <;>
      simp [finalize_lk_multiplicities, h1, h]
  · intro Mat CS zw z name witness mlt h
    simp [assign_opcode_circuit, h]
  · intro CS z z' name cs1 cs2 h
    by_cases hm : name ∈ z.circuit_css.map Prod.fst
    · simp [register_circuit, hm] at h
    · simp only [register_circuit, hm, if_false, Option.some.injEq] at h
      have hmem : name ∈ z'.circuit_css.map Prod.fst := by
        rw [← h]
        simp
      constructor <;>
        simp [register_opcode_circuit, register_table_circuit,
          register_circuit, hmem]

theorem c6_witness :
    assign_table_circuit zwA zcs0 "tbl" (fun _ => some ()) = none
    ∧ finalize_lk_multiplicities zwB = none
    ∧ finalize_lk_multiplicities zwEmpty = none
    ∧ assign_opcode_circuit zwB zcs1 "sub" () mltOne = none
    ∧ register_opcode_circuit zcs1 "add" () = none
    ∧ register_table_circuit zcs1 "add" () = none := by
  have h := c6_registry_phase_faults
  have hreg := h.2.2.2.2 Unit zcs0 zcs1 "add" () () rfl
  exact ⟨h.1 Unit Unit zwA zcs0 "tbl" _ rfl,
    h.2.1 Unit zwA zwB rfl,
    h.2.2.1 Unit zwEmpty rfl,
    h.2.2.2.1 Unit Unit zwB zcs1 "sub" () mltOne rfl,
    hreg.1, hreg.2⟩

theorem mergeMltsAux (ms : List Mlt) : ∀ (acc : Mlt) (t : ROMType) (key : Nat),
    (ms.foldl (fun acc m => fun t key => acc t key + m t key) acc) t key
      = acc t key + (ms.map (fun m => m t key)).sum := by
  induction ms with
  | nil => intro acc t key; simp
  | cons m ms ih =>
    intro acc t key
    simp only [List.foldl_cons, List.map_cons, List.sum_cons, ih]
    exact Nat.add_assoc _ _ _

theorem mergeMlts_sum (ms : List Mlt) (t : ROMType) (key : Nat) :
    mergeMlts ms t key = (ms.map (fun m => m t key)).sum := by
  simpa [mergeMlts] using mergeMltsAux ms (fun _ _ => 0) t key

/-- C7: finalize_lk_multiplicities produces, for each table type, a
combined multiplicity table whose count at every lookup key equals the sum
over all assigned opcode circuits of that circuit's count at the key;
consequently merging the same set of per-circuit multiplicity maps in any
order yields an identical combined table. -/
theorem c7_finalize_merge :
    (∀ (Mat : Type) (zw zw' : ZKVMWitnesses Mat),
      finalize_lk_multiplicities zw = some zw' →
      zw'.combined_lk_mlt = some (mergeMlts (zw.lk_mlts.map Prod.snd))
      ∧ ∀ (t : ROMType) (key : Nat),
          mergeMlts (zw.lk_mlts.map Prod.snd) t key
            = ((zw.lk_mlts.map Prod.snd).map (fun m => m t key)).sum)
    ∧ ∀ ms1 ms2 : List Mlt, ms1.Perm ms2 → mergeMlts ms1 = mergeMlts ms2 := by
  constructor
  · intro Mat zw zw' h
    unfold finalize_lk_multiplicities at h
    by_cases h1 : zw.combined_lk_mlt.isSome
    · simp [h1] at h
    · by_cases h2 : zw.lk_mlts.isEmpty
      · simp [h1, h2] at h
      · simp only [h1, h2, if_false, Option.some.injEq, Bool.false_eq_true] at h
        subst h
        exact ⟨rfl, fun t key => mergeMlts_sum _ t key⟩
  · intro ms1 ms2 hp
    funext t key
    rw [mergeMlts_sum, mergeMlts_sum]
    exact (hp.map _).sum_eq

theorem c7_witness :
    zwD.combined_lk_mlt = some (mergeMlts (zwC.lk_mlts.map Prod.snd))
    ∧ mergeMlts [mltOne, mltTwo] ROMType.U5 3 = 3
    ∧ mergeMlts [mltOne, mltTwo] = mergeMlts [mltTwo, mltOne] := by
  have h := c7_finalize_merge
  refine ⟨(h.1 Unit zwC zwD rfl).1, ?_,
    h.2 [mltOne, mltTwo] [mltTwo, mltOne] (List.Perm.swap mltTwo mltOne [])⟩
  have h2 := (h.1 Unit zwC zwD rfl).2 ROMType.U5 3
  simpa [mltOne, mltTwo] using h2

/-- C3 (failing evaluation): msb_decompose registers the byte-AND lookup
with mask constant 1 <<< 7 = 0x80 rather than 0x7F, so on the limbs
[0,0,0,255] the accepted witness holds masked = 255 AND 128 = 128, which
lies outside [0,128) and differs from 255 AND 127 = 127, and the msb cell
holds 127 * 128⁻¹, which is neither 0 nor 1. -/
theorem c3_msb_decompose_mask :
    msbCircuit.2.satisfies msbW
    ∧ msbW msbCircuit.1.high_limb_no_msb = 128
    ∧ ¬ (msbW msbCircuit.1.high_limb_no_msb).val < 128
    ∧ msbW msbCircuit.1.msb ≠ 0
    ∧ msbW msbCircuit.1.msb ≠ 1
    ∧ Lookup.andByte (Expression.wit msbCircuit.1.high_limb_no_msb)
        (Expression.wit 3) (Expression.const ((1 <<< 7 : Nat) : F))
        ∈ msbCircuit.2.lookups
    ∧ (255 &&& 127 : Nat) = 127
    ∧ msbW msbCircuit.1.high_limb_no_msb ≠ ((255 &&& 127 : Nat) : F) := by
  decide

/-- C4 (failing evaluation): on a = [0,0,0,128] (the 32-bit value
0x80000000, signed -2^31) and b = [0,0,0,0], lt_limb8 accepts a witness
with is_lt = 0 even though the signed two's-complement comparison gives
a < b; the msb mask bug makes both msb cells evaluate to 0, so the
circuit compares the operands as if both were non-negative. -/
theorem c4_lt_limb8_signed_divergence :
    ltCircuit.2.satisfies ltW
    ∧ ([0, 1, 2, 3].map (fun i => (ltW i).val)) = [0, 0, 0, 128]
    ∧ ([4, 5, 6, 7].map (fun i => (ltW i).val)) = [0, 0, 0, 0]
    ∧ ltW ltCircuit.1.is_lt = 0
    ∧ toSigned [0, 0, 0, 128] < toSigned [0, 0, 0, 0]
    ∧ ltW ltCircuit.1.lhs_msb.msb = 0
    ∧ ltW ltCircuit.1.rhs_msb.msb = 0 := by
  decide

/-- C5: lt_limb8 enforces the signed-comparison composition
lt(a,b) = a_msb*(1-b_msb) + eq(a_msb,b_msb)*ltu(a_without_msb,b_without_msb)
as a single zero check combining the msb equality-with-inverse result and
the unsigned comparison's output bit, with the result bit is_lt itself
bit-constrained. -/
theorem c5_lt_limb8_zero_check (self rhs : List Nat) (cb : CircuitBuilder) :
    bitExpr (Expression.wit (lt_limb8 self rhs cb).1.is_lt)
        ∈ (lt_limb8 self rhs cb).2.constraints
    ∧ Expression.sub
        (Expression.add
          (Expression.sub (Expression.wit (lt_limb8 self rhs cb).1.lhs_msb.msb)
            (Expression.mul (Expression.wit (lt_limb8 self rhs cb).1.lhs_msb.msb)
              (Expression.wit (lt_limb8 self rhs cb).1.rhs_msb.msb)))
          (Expression.mul (Expression.wit (lt_limb8 self rhs cb).1.msb_is_equal)
            (Expression.wit (lt_limb8 self rhs cb).1.is_ltu.is_ltu)))
        (Expression.wit (lt_limb8 self rhs cb).1.is_lt)
        ∈ (lt_limb8 self rhs cb).2.constraints
    ∧ ∀ w : Nat → F, (lt_limb8 self rhs cb).2.satisfies w →
        w (lt_limb8 self rhs cb).1.is_lt
            * (w (lt_limb8 self rhs cb).1.is_lt - 1) = 0
        ∧ w (lt_limb8 self rhs cb).1.is_lt
            = w (lt_limb8 self rhs cb).1.lhs_msb.msb
              - w (lt_limb8 self rhs cb).1.lhs_msb.msb
                * w (lt_limb8 self rhs cb).1.rhs_msb.msb
              + w (lt_limb8 self rhs cb).1.msb_is_equal
                * w (lt_limb8 self rhs cb).1.is_ltu.is_ltu := by
  have hmem1 : bitExpr (Expression.wit (lt_limb8 self rhs cb).1.is_lt)
      ∈ (lt_limb8 self rhs cb).2.constraints := by
    simp only [lt_limb8, msb_decompose, ltu_limb8, is_equal, assert_bit,
      require_zero, require_equal, create_witin, create_witin_from_expr,
      lookup_and_byte]
    simp [List.mem_append]
  have hmem2 : Expression.sub
      (Expression.add
        (Expression.sub (Expression.wit (lt_limb8 self rhs cb).1.lhs_msb.msb)
          (Expression.mul (Expression.wit (lt_limb8 self rhs cb).1.lhs_msb.msb)
            (Expression.wit (lt_limb8 self rhs cb).1.rhs_msb.msb)))
        (Expression.mul (Expression.wit (lt_limb8 self rhs cb).1.msb_is_equal)
          (Expression.wit (lt_limb8 self rhs cb).1.is_ltu.is_ltu)))
      (Expression.wit (lt_limb8 self rhs cb).1.is_lt)
      ∈ (lt_limb8 self rhs cb).2.constraints := by
    simp only [lt_limb8, msb_decompose, ltu_limb8, is_equal, assert_bit,
      require_zero, require_equal, create_witin, create_witin_from_expr,
      lookup_and_byte]
    simp [List.mem_append]
  refine ⟨hmem1, hmem2, ?_⟩
  intro w hsat
  constructor
  · have h0 := hsat.1 _ hmem1
    simpa [bitExpr, Expression.eval] using h0
  · have h0 := hsat.1 _ hmem2
    simp only [Expression.eval] at h0
    have h1 := sub_eq_zero.mp h0
    exact h1.symm

theorem c5_witness :
    bitExpr (Expression.wit ltCircuit.1.is_lt) ∈ ltCircuit.2.constraints
    ∧ ltW ltCircuit.1.is_lt * (ltW ltCircuit.1.is_lt - 1) = 0
    ∧ ltW ltCircuit.1.is_lt
        = ltW ltCircuit.1.lhs_msb.msb
          - ltW ltCircuit.1.lhs_msb.msb * ltW ltCircuit.1.rhs_msb.msb
          + ltW ltCircuit.1.msb_is_equal * ltW ltCircuit.1.is_ltu.is_ltu := by
  have h := c5_lt_limb8_zero_check byteUIntPair.1.1 byteUIntPair.1.2
    byteUIntPair.2
  have hs := h.2.2 ltW (by decide)
  exact ⟨h.1, hs.1, hs.2⟩

/-- C2 (counterexample): with a = [5,1,0,0] and b = [3,2,0,0] the ltu_limb8
constraint system accepts a witness in which limb 0 is not the marked
differing limb (its index cell is 0) yet a[0] differs from b[0]: the diff
zero check uses the accumulated flag si, so limbs below the marked limb are
not forced equal, contradicting the claim that every limb other than the
marked one must be identical. -/
theorem c2_counterexample :
    ltuCircuit.2.satisfies ltuW
    ∧ ltuW (ltuCircuit.1.indexes.getD 0 0) = 0
    ∧ ltuW (ltuCircuit.1.indexes.getD 1 0) = 1
    ∧ ltuW 0 ≠ ltuW 4 := by
  decide

theorem eval_foldl_add (w : Nat → F) (l : List Nat) :
    ∀ acc : Expression,
      (l.foldl (fun a cc => Expression.add a (Expression.wit cc)) acc).eval w
        = acc.eval w + (l.map w).sum := by
  induction l with
  | nil => intro acc; simp
  | cons x xs ih =>
    intro acc
    simp only [List.foldl_cons, List.map_cons, List.sum_cons, ih]
    simp only [Expression.eval]
    ring

theorem eval_siExpr (w : Nat → F) (indexes : List Nat) (i : Nat) :
    (siExpr indexes i).eval w = ((indexes.drop i).map w).sum := by
  unfold siExpr
  rw [eval_foldl_add]
  simp [Expression.eval, List.map_reverse, List.sum_reverse]

theorem toBit_le_one (x : F) : toBit x ≤ 1 := by
  unfold toBit
  split <;> omega

theorem toBit_cast (x : F) (h : x = 0 ∨ x = 1) : x = ((toBit x : Nat) : F) := by
  rcases h with h | h <;>
    simp [h, toBit, show (0 : F) ≠ 1 by decide]

theorem bitSum_cast (l : List F) (h : ∀ x ∈ l, x = 0 ∨ x = 1) :
    l.sum = (((l.map toBit).sum : Nat) : F) := by
  induction l with
  | nil => simp
  | cons x xs ih =>
    have hx := h x (List.mem_cons_self x xs)
    have ihh := ih (fun y hy => h y (List.mem_cons_of_mem x hy))
    simp only [List.sum_cons, List.map_cons, Nat.cast_add, ihh]
    congr 1
    exact toBit_cast x hx

theorem F_natCast_inj (a b : Nat) (ha : a < gp) (hb : b < gp)
    (h : (a : F) = b) : a = b := by
  have h2 := congrArg ZMod.val h
  rwa [ZMod.val_cast_of_lt ha, ZMod.val_cast_of_lt hb] at h2

theorem bitNatSum_le (l : List F) : (l.map toBit).sum ≤ l.length := by
  have h := List.sum_le_card_nsmul (l.map toBit) 1 (fun x hx => by
    rcases List.mem_map.mp hx with ⟨y, _, rfl⟩
    exact toBit_le_one y)
  simpa using h

theorem getD_range_map (f : Nat → Nat) (n i : Nat) (hi : i < n) :
    (((List.range n).map f).getD i 0) = f i := by
  rw [List.getD_eq_getElem?_getD, List.getElem?_map, List.getElem?_range hi]
  rfl

/-- C2 (amended): ltu_limb8 allocates a one-hot index vector in which every
index cell is bit-constrained and the sum of all index cells is
bit-constrained (at most one limb marked); for every limb i it registers
the constraint a[i] - b[i] = flag[i]*(a[i] - b[i]) where flag[i] is the
accumulated marker si[i] (the sum of the index cells from position i
upward), forcing equality of every limb strictly above the marked
differing limb (and of all limbs when none is marked); and the output bit
is_ltu is constrained by a lookup into the byte-LTU fixed table keyed by
the pair (lhs_ne_byte, rhs_ne_byte). -/
theorem c2_ltu_limb8_amended (self rhs : List Nat) (cb : CircuitBuilder)
    (n : Nat) (hs : self.length = n) (hn : n < 2 ^ 32) :
    Lookup.ltuByte (Expression.wit (ltu_limb8 self rhs cb).1.is_ltu)
        (Expression.wit (ltu_limb8 self rhs cb).1.lhs_ne_byte)
        (Expression.wit (ltu_limb8 self rhs cb).1.rhs_ne_byte)
      ∈ (ltu_limb8 self rhs cb).2.lookups
    ∧ ∀ w : Nat → F, (ltu_limb8 self rhs cb).2.satisfies w →
        (∀ cc ∈ (ltu_limb8 self rhs cb).1.indexes, w cc = 0 ∨ w cc = 1)
        ∧ (((ltu_limb8 self rhs cb).1.indexes.map w).sum = 0
            ∨ ((ltu_limb8 self rhs cb).1.indexes.map w).sum = 1)
        ∧ (∀ i, i < n →
            w (self.getD i 0) - w (rhs.getD i 0)
              = w ((ltu_limb8 self rhs cb).1.acc_indexes.getD i 0)
                * (w (self.getD i 0) - w (rhs.getD i 0)))
        ∧ (∀ i, i < n →
            w ((ltu_limb8 self rhs cb).1.acc_indexes.getD i 0)
              = ((((ltu_limb8 self rhs cb).1.indexes.drop i).map w).sum))
        ∧ (∀ p i, p < i → i < n →
            w ((ltu_limb8 self rhs cb).1.indexes.getD p 0) = 1 →
            w (self.getD i 0) = w (rhs.getD i 0))
        ∧ ((∀ cc ∈ (ltu_limb8 self rhs cb).1.indexes, w cc = 0) →
            ∀ i, i < n → w (self.getD i 0) = w (rhs.getD i 0)) := by
  subst hs
  constructor
  · exact List.mem_append_right _ (List.mem_singleton.mpr rfl)
  intro w hsat
  set n := self.length with hnd
  set k := cb.numWitin with hkd
  set L : List Nat := (List.range n).map (k + ·) with hLd
  have hidx : (ltu_limb8 self rhs cb).1.indexes = L := rfl
  have hacc : (ltu_limb8 self rhs cb).1.acc_indexes
      = (List.range n).map (fun i => k + n + 1 + i) := rfl
  set B1 : List Expression := L.map (fun cc => bitExpr (Expression.wit cc))
    with hB1d
  set S : Expression := bitExpr (L.foldl
      (fun acc cc => Expression.add acc (Expression.wit cc))
      (Expression.const 0)) with hSd
  set B3 : List Expression := (List.range n).map (fun i =>
      Expression.sub (Expression.wit (k + n + 1 + i)) (siExpr L i)) with hB3d
  set B4 : List Expression := (List.range n).map (fun i =>
      diffZeroExpr (k + n + 1 + i) (self.getD i 0) (rhs.getD i 0)) with hB4d
  set E5 : Expression :=
    Expression.sub (Expression.wit (k + 2 * n + 1)) (accByteSum self L)
    with hE5d
  set E6 : Expression :=
    Expression.sub (Expression.wit (k + 2 * n + 2)) (accByteSum rhs L)
    with hE6d
  set E7 : Expression :=
    Expression.sub
      (Expression.sub
        (Expression.mul (Expression.wit (k + 2 * n + 1))
          (Expression.wit (k + n)))
        (Expression.mul (Expression.wit (k + 2 * n + 2))
          (Expression.wit (k + n))))
      (Expression.wit (k + n + 1)) with hE7d
  have hconstr : (ltu_limb8 self rhs cb).2.constraints
      = cb.constraints ++ (B1 ++ [S] ++ B3 ++ B4 ++ [E5] ++ [E6] ++ [E7]) :=
    rfl
  have hmemB1 : ∀ e ∈ B1, e ∈ (ltu_limb8 self rhs cb).2.constraints := by
    intro e he
    rw [hconstr]
    refine List.mem_append_right _ ?_
    simp only [List.append_assoc, List.mem_append]
    exact Or.inl he
  have hmemS : S ∈ (ltu_limb8 self rhs cb).2.constraints := by
    rw [hconstr]
    refine List.mem_append_right _ ?_
    simp only [List.append_assoc, List.mem_append]
    exact Or.inr (Or.inl (List.mem_singleton.mpr rfl))
  have hmemB3 : ∀ e ∈ B3, e ∈ (ltu_limb8 self rhs cb).2.constraints := by
    intro e he
    rw [hconstr]
    refine List.mem_append_right _ ?_
    simp only [List.append_assoc, List.mem_append]
    exact Or.inr (Or.inr (Or.inl he))
  have hmemB4 : ∀ e ∈ B4, e ∈ (ltu_limb8 self rhs cb).2.constraints := by
    intro e he
    rw [hconstr]
    refine List.mem_append_right _ ?_
    simp only [List.append_assoc, List.mem_append]
    exact Or.inr (Or.inr (Or.inr (Or.inl he)))
  have hbit : ∀ j, j < n → w (k + j) = 0 ∨ w (k + j) = 1 := by
    intro j hj
    have hm : bitExpr (Expression.wit (k + j)) ∈ B1 :=
      List.mem_map_of_mem _ (List.mem_map_of_mem _ (List.mem_range.mpr hj))
    have h0 := hsat.1 _ (hmemB1 _ hm)
    apply F_bit_of_sq
    simpa [bitExpr, Expression.eval] using h0
  have hLmap : ∀ x ∈ L.map w, x = 0 ∨ x = 1 := by
    intro x hx
    rcases List.mem_map.mp hx with ⟨cc, hcc, rfl⟩
    rcases List.mem_map.mp hcc with ⟨j, hj, rfl⟩
    exact hbit j (List.mem_range.mp hj)
  have hsum : (L.map w).sum = 0 ∨ (L.map w).sum = 1 := by
    have h0 := hsat.1 _ hmemS
    apply F_bit_of_sq
    rw [hSd] at h0
    have he := eval_foldl_add w L (Expression.const 0)
    simp only [bitExpr, Expression.eval] at h0
    rw [he] at h0
    simpa [Expression.eval] using h0
  have hsi : ∀ i, i < n →
      w (k + n + 1 + i) = ((L.drop i).map w).sum := by
    intro i hi
    have hm : Expression.sub (Expression.wit (k + n + 1 + i)) (siExpr L i)
        ∈ B3 := List.mem_map_of_mem _ (List.mem_range.mpr hi)
    have h0 := hsat.1 _ (hmemB3 _ hm)
    have h1 : w (k + n + 1 + i) - (siExpr L i).eval w = 0 := by
      simpa [Expression.eval] using h0
    rw [sub_eq_zero.mp h1, eval_siExpr]
  have hdiff : ∀ i, i < n →
      w (self.getD i 0) - w (rhs.getD i 0)
        = w (k + n + 1 + i) * (w (self.getD i 0) - w (rhs.getD i 0)) := by
    intro i hi
    have hm : diffZeroExpr (k + n + 1 + i) (self.getD i 0) (rhs.getD i 0)
        ∈ B4 := List.mem_map_of_mem _ (List.mem_range.mpr hi)
    have h0 := hsat.1 _ (hmemB4 _ hm)
    have h1 : w (self.getD i 0) - w (rhs.getD i 0)
        - w (k + n + 1 + i) * w (self.getD i 0)
        + w (k + n + 1 + i) * w (rhs.getD i 0) = 0 := by
      simpa [diffZeroExpr, Expression.eval] using h0
    linear_combination h1
  have heval0 : ∀ i, i < n → ((L.drop i).map w).sum = 0 →
      w (self.getD i 0) = w (rhs.getD i 0) := by
    intro i hi hz
    have hd := hdiff i hi
    rw [hsi i hi, hz, zero_mul] at hd
    exact sub_eq_zero.mp hd
  refine ⟨?_, ?_, ?_, ?_, ?_, ?_⟩
  · intro cc hcc
    rw [hidx] at hcc
    rcases List.mem_map.mp hcc with ⟨j, hj, rfl⟩
    exact hbit j (List.mem_range.mp hj)
  · rw [hidx]
    exact hsum
  · intro i hi
    rw [hacc, getD_range_map _ _ _ hi]
    exact hdiff i hi
  · intro i hi
    rw [hacc, getD_range_map _ _ _ hi, hidx]
    exact hsi i hi
  · intro p i hpi hi hp1
    have hp : p < n := lt_trans hpi hi
    rw [hidx, getD_range_map _ _ _ hp] at hp1
    apply heval0 i hi
    have hTall : ∀ x ∈ (L.take i).map w, x = 0 ∨ x = 1 := by
      intro x hx
      rcases List.mem_map.mp hx with ⟨cc, hcc, rfl⟩
      exact hLmap _ (List.mem_map_of_mem _ (List.take_subset _ _ hcc))
    have hDall : ∀ x ∈ (L.drop i).map w, x = 0 ∨ x = 1 := by
      intro x hx
      rcases List.mem_map.mp hx with ⟨cc, hcc, rfl⟩
      exact hLmap _ (List.mem_map_of_mem _ (List.drop_subset _ _ hcc))
    have hTc := bitSum_cast _ hTall
    have hDc := bitSum_cast _ hDall
    have hsplit : L.map w = ((L.take i).map w) ++ ((L.drop i).map w) := by
      rw [← List.map_append, List.take_append_drop]
    have htot : (L.map w).sum
        = (((((L.take i).map w).map toBit).sum
            + ((((L.drop i).map w).map toBit).sum) : Nat) : F) := by
      rw [hsplit, List.sum_append, hTc, hDc]
      push_cast
      ring
    have hLlen : L.length = n := by simp [hLd]
    have haN : 1 ≤ ((((L.take i).map w).map toBit).sum) := by
      have hmemT : (k + p) ∈ L.take i := by
        apply List.getElem?_mem (n := p)
        rw [List.getElem?_take, if_pos hpi, hLd, List.getElem?_map,
          List.getElem?_range hp]
        rfl
      have h1mem : (1 : Nat) ∈ (((L.take i).map w).map toBit) := by
        have hb1 : toBit (w (k + p)) = 1 := by rw [hp1]; simp [toBit]
        rw [← hb1]
        exact List.mem_map_of_mem _ (List.mem_map_of_mem _ hmemT)
      exact List.single_le_sum (fun x _ => Nat.zero_le x) 1 h1mem
    have hbT : ((((L.take i).map w).map toBit).sum) ≤ n := by
      have h1 := bitNatSum_le ((L.take i).map w)
      have h2 : ((L.take i).map w).length ≤ n := by
        simp [List.length_take, hLlen]
      omega
    have hbD : ((((L.drop i).map w).map toBit).sum) ≤ n := by
      have h1 := bitNatSum_le ((L.drop i).map w)
      have h2 : ((L.drop i).map w).length ≤ n := by
        simp [List.length_drop, hLlen]
      omega
    have hgp2 : 2 ^ 32 + 2 ^ 32 < gp := by decide
    have hzeroD : ((((L.drop i).map w).map toBit).sum) = 0 := by
      rcases hsum with h0 | h1
      · rw [htot] at h0
        have : ((((L.take i).map w).map toBit).sum
            + ((((L.drop i).map w).map toBit).sum)) = 0 := by
          apply F_natCast_inj _ 0 (by omega) (by omega)
          simpa using h0
        omega
      · rw [htot] at h1
        have : ((((L.take i).map w).map toBit).sum
            + ((((L.drop i).map w).map toBit).sum)) = 1 := by
          apply F_natCast_inj _ 1 (by omega) (by omega)
          simpa using h1
        omega
    rw [hDc, hzeroD]
    simp
  · intro hall i hi
    apply heval0 i hi
    apply List.sum_eq_zero
    intro x hx
    rcases List.mem_map.mp hx with ⟨cc, hcc, rfl⟩
    exact hall cc (by rw [hidx]; exact List.drop_subset _ _ hcc)

theorem c2_amended_witness :
    Lookup.ltuByte (Expression.wit ltuCircuit.1.is_ltu)
        (Expression.wit ltuCircuit.1.lhs_ne_byte)
        (Expression.wit ltuCircuit.1.rhs_ne_byte) ∈ ltuCircuit.2.lookups
    ∧ ltuW (ltuCircuit.1.indexes.getD 1 0) = 1
    ∧ ltuW (byteUIntPair.1.1.getD 2 0) = ltuW (byteUIntPair.1.2.getD 2 0)
    ∧ ltuW (byteUIntPair.1.1.getD 3 0) = ltuW (byteUIntPair.1.2.getD 3 0) := by
  have h := c2_ltu_limb8_amended byteUIntPair.1.1 byteUIntPair.1.2
    byteUIntPair.2 4 rfl (by decide)
  have hs := h.2 ltuW (by decide)
  exact ⟨h.1, by decide,
    hs.2.2.2.2.1 1 2 (by decide) (by decide) (by decide),
    hs.2.2.2.2.1 1 3 (by decide) (by decide) (by decide)⟩
